import Mathlib

/-!
# Verification of the `fl` Bayesian filtering core

A shallow embedding, over exact real arithmetic, of the sigma-point
(unscented) transform, the multi-sensor sigma-point update policy, the
Gaussian belief container and the state-transition density interface of
the `fl` library, together with theorems settling the specification
claims about them.

Sources embedded:
* `include/fl/filter/gaussian/transform/unscented_transform.hpp`
* `include/fl/filter/gaussian/update_policy/multi_sensor_sigma_point_update_polizzle.hpp`
* `include/fast_filtering/distributions/gaussian.hpp`
* `include/fl/model/process/interface/state_transition_density.hpp`

The point-set container and the sigma-point quadrature engine are not
part of the sources; where the update policy relies on them they are
modelled from the specification (see the doc comments starting with
`Modelled from the spec:`).

Floating-point `double` arithmetic is idealised as `ℝ`; the IEEE
non-finite values (NaN, ±Inf) that the update policy's validity gate
tests for are modelled by the explicit scalar type `FlScalar` on the
measurement vector, where they actually occur as external inputs.
-/

noncomputable section

open Matrix

namespace Fl

/-! ## Unscented transform scalars
    (`UnscentedTransform` in `unscented_transform.hpp`, lines 200-249) -/

/-- `UnscentedTransform::lambda_scalar`:
`alpha_ * alpha_ * (dim + kappa_) - dim`. -/
def lambda_scalar (alpha kappa dim : ℝ) : ℝ :=
  alpha * alpha * (dim + kappa) - dim

/-- `UnscentedTransform::weight_mean_0`:
`lambda_scalar(dim) / (dim + lambda_scalar(dim))`. -/
def weight_mean_0 (alpha kappa dim : ℝ) : ℝ :=
  lambda_scalar alpha kappa dim / (dim + lambda_scalar alpha kappa dim)

/-- `UnscentedTransform::weight_cov_0`:
`weight_mean_0(dim) + (1 - alpha_ * alpha_ + beta_)`. -/
def weight_cov_0 (alpha beta kappa dim : ℝ) : ℝ :=
  weight_mean_0 alpha kappa dim + (1 - alpha * alpha + beta)

/-- `UnscentedTransform::weight_mean_i`:
`1. / (2. * (dim + lambda_scalar(dim)))`. -/
def weight_mean_i (alpha kappa dim : ℝ) : ℝ :=
  1 / (2 * (dim + lambda_scalar alpha kappa dim))

/-- `UnscentedTransform::weight_cov_i`: returns `weight_mean_i(dim)`. -/
def weight_cov_i (alpha kappa dim : ℝ) : ℝ :=
  weight_mean_i alpha kappa dim

/-- `UnscentedTransform::gamma_factor`:
`std::sqrt(dim + lambda_scalar(dim))`. -/
noncomputable def gamma_factor (alpha kappa dim : ℝ) : ℝ :=
  Real.sqrt (dim + lambda_scalar alpha kappa dim)

/-! Spec-side scalar formulas, written independently from the words of
spec §4.2 ("Algorithm (must match exactly for numerical compatibility)"). -/

/-- Spec §4.2: `lambda = alpha² · (global_dim + kappa) − global_dim`. -/
def spec_lambda (alpha kappa global_dim : ℝ) : ℝ :=
  alpha ^ 2 * (global_dim + kappa) - global_dim

/-- Spec §4.2: `w_mean_0 = lambda / (global_dim + lambda)`. -/
def spec_w_mean_0 (alpha kappa global_dim : ℝ) : ℝ :=
  spec_lambda alpha kappa global_dim /
    (global_dim + spec_lambda alpha kappa global_dim)

/-- Spec §4.2: `w_cov_0 = w_mean_0 + (1 − alpha² + beta)`. -/
def spec_w_cov_0 (alpha beta kappa global_dim : ℝ) : ℝ :=
  spec_w_mean_0 alpha kappa global_dim + (1 - alpha ^ 2 + beta)

/-- Spec §4.2: `w_mean_i = w_cov_i = 1 / (2·(global_dim + lambda))`. -/
def spec_w_i (alpha kappa global_dim : ℝ) : ℝ :=
  1 / (2 * (global_dim + spec_lambda alpha kappa global_dim))

/-- Spec §4.2: `gamma = sqrt(global_dim + lambda)`. -/
noncomputable def spec_gamma (alpha kappa global_dim : ℝ) : ℝ :=
  Real.sqrt (global_dim + spec_lambda alpha kappa global_dim)

/-! ## Unscented transform point generation
    (`UnscentedTransform::forward`, `unscented_transform.hpp` lines 95-162)

The C++ `forward` mutates a `PointSet` through calls
`point_set.point(idx, value, weight)`.  We embed the call as the exact
sequence of writes it performs (`PointWrite` / `forwardWrites`), and the
resulting container as the map obtained by applying those writes in
order (`applyWrites`). -/

/-- One `point_set.point(idx, pt, Weight{wm, wc})` call performed by
`UnscentedTransform::forward`. -/
structure PointWrite (d : ℕ) where
  idx : ℕ
  pt : Fin d → ℝ
  wm : ℝ
  wc : ℝ

/-- Column `k` of the scaled square root
`covariance_sqrt = gaussian.square_root() * gamma_factor(dim)`
(out-of-range `k` yields junk `0`; `forward` only reads columns `< d`). -/
def sqrtCol (gamma : ℝ) (S : Matrix (Fin d) (Fin d) ℝ) (k : ℕ) :
    Fin d → ℝ :=
  fun r => if hk : k < d then gamma * S r ⟨k, hk⟩ else 0

/-- The writes of one `for` loop of `forward`: iteration `k < c` has
`i = a + k` and performs `point_set.point(i, f k, w)` followed by
`point_set.point(global_dimension + i, g k, w)`. -/
def pairWrites (n a c : ℕ) (f g : ℕ → Fin d → ℝ) (wm wc : ℝ) :
    List (PointWrite d) :=
  (List.range c).flatMap fun k =>
    [⟨a + k, f k, wm, wc⟩, ⟨n + (a + k), g k, wm, wc⟩]

/-- The full sequence of writes performed by
`UnscentedTransform::forward(gaussian, global_dimension, dimension_offset,
point_set)` on a Gaussian with mean `mu`, square root `S` and dimension
`d`, for global dimension `n` and offset `offset`:
the first point (index 0) is the mean with weights
`(weight_mean_0, weight_cov_0)`; then three sequential loops over
`i ∈ [1, limit_1)`, `i ∈ [limit_1, limit_2)` and `i ∈ [limit_2, limit_3]`
with `limit_1 = 1 + offset`, `limit_2 = limit_1 + d`, `limit_3 = n`,
each writing indices `i` and `global_dimension + i`; the middle loop
writes `mean ± covariance_sqrt.col(i - offset - 1)`, the outer two write
the mean unchanged. -/
noncomputable def forwardWrites (alpha beta kappa : ℝ) (mu : Fin d → ℝ)
    (S : Matrix (Fin d) (Fin d) ℝ) (n offset : ℕ) : List (PointWrite d) :=
  let dim : ℝ := (n : ℝ)
  let gamma := gamma_factor alpha kappa dim
  let w0m := weight_mean_0 alpha kappa dim
  let w0c := weight_cov_0 alpha beta kappa dim
  let wim := weight_mean_i alpha kappa dim
  let wic := weight_cov_i alpha kappa dim
  ⟨0, mu, w0m, w0c⟩ ::
    (pairWrites n 1 offset (fun _ => mu) (fun _ => mu) wim wic ++
     pairWrites n (1 + offset) d
       (fun k => mu + sqrtCol gamma S k) (fun k => mu - sqrtCol gamma S k)
       wim wic ++
     pairWrites n (1 + offset + d) (n - offset - d)
       (fun _ => mu) (fun _ => mu) wim wic)

/-- Applies a sequence of `point_set.point` writes to a point-set state
(a total map from index to `(point, weight_mean, weight_cov)`). -/
def applyWrites (ws : List (PointWrite d))
    (init : ℕ → (Fin d → ℝ) × ℝ × ℝ) : ℕ → (Fin d → ℝ) × ℝ × ℝ :=
  ws.foldl (fun m w => Function.update m w.idx (w.pt, w.wm, w.wc)) init

/-- The point-set contents produced by `forward` (applied to an arbitrary
initial container state `init`). -/
noncomputable def forwardPointSet (alpha beta kappa : ℝ) (mu : Fin d → ℝ)
    (S : Matrix (Fin d) (Fin d) ℝ) (n offset : ℕ)
    (init : ℕ → (Fin d → ℝ) × ℝ × ℝ) : ℕ → (Fin d → ℝ) × ℝ × ℝ :=
  applyWrites (forwardWrites alpha beta kappa mu S n offset) init

/-- The closed-form layout the generated set satisfies (theorem
`C5_point_layout`): index 0 is the mean; for `k < d` the pair at indices
`offset + 1 + k` and `n + offset + 1 + k` is `mean ± column k` of the
scaled square root; every other index holds the mean unchanged. -/
noncomputable def utLayout (alpha beta kappa : ℝ) (mu : Fin d → ℝ)
    (S : Matrix (Fin d) (Fin d) ℝ) (n offset idx : ℕ) :
    (Fin d → ℝ) × ℝ × ℝ :=
  let dim : ℝ := (n : ℝ)
  let gamma := gamma_factor alpha kappa dim
  if idx = 0 then
    (mu, weight_mean_0 alpha kappa dim, weight_cov_0 alpha beta kappa dim)
  else if 1 + offset ≤ idx ∧ idx < 1 + offset + d then
    (mu + sqrtCol gamma S (idx - (1 + offset)),
      weight_mean_i alpha kappa dim, weight_cov_i alpha kappa dim)
  else if n + (1 + offset) ≤ idx ∧ idx < n + (1 + offset) + d then
    (mu - sqrtCol gamma S (idx - (n + (1 + offset))),
      weight_mean_i alpha kappa dim, weight_cov_i alpha kappa dim)
  else
    (mu, weight_mean_i alpha kappa dim, weight_cov_i alpha kappa dim)

/-- The write `forward` performs at index `m`, as a (possibly empty)
singleton list: the head write at 0, a `+`-column write in
`[1 + offset, 1 + offset + d)`, a `−`-column write in
`[n + 1 + offset, n + 1 + offset + d)`, a plain mean write at every
other index below `2·n + 1`, and nothing beyond. -/
noncomputable def utWriteAt (alpha beta kappa : ℝ) (mu : Fin d → ℝ)
    (S : Matrix (Fin d) (Fin d) ℝ) (n offset m : ℕ) : List (PointWrite d) :=
  let dim : ℝ := (n : ℝ)
  let gamma := gamma_factor alpha kappa dim
  let wim := weight_mean_i alpha kappa dim
  let wic := weight_cov_i alpha kappa dim
  if m = 0 then
    [⟨0, mu, weight_mean_0 alpha kappa dim, weight_cov_0 alpha beta kappa dim⟩]
  else if 1 + offset ≤ m ∧ m < 1 + offset + d then
    [⟨m, mu + sqrtCol gamma S (m - (1 + offset)), wim, wic⟩]
  else if n + (1 + offset) ≤ m ∧ m < n + (1 + offset) + d then
    [⟨m, mu - sqrtCol gamma S (m - (n + (1 + offset))), wim, wic⟩]
  else if m < 2 * n + 1 then
    [⟨m, mu, wim, wic⟩]
  else []

/-- Claim C5's literal layout: the symmetric pairs sit at indices `i` and
`global_dimension + i` for `i` ranging over `[offset, offset + d)`,
point 0 is the mean, and every other index holds the mean. -/
noncomputable def utLayoutClaimC5 (alpha beta kappa : ℝ) (mu : Fin d → ℝ)
    (S : Matrix (Fin d) (Fin d) ℝ) (n offset idx : ℕ) :
    (Fin d → ℝ) × ℝ × ℝ :=
  let dim : ℝ := (n : ℝ)
  let gamma := gamma_factor alpha kappa dim
  if idx = 0 then
    (mu, weight_mean_0 alpha kappa dim, weight_cov_0 alpha beta kappa dim)
  else if offset ≤ idx ∧ idx < offset + d then
    (mu + sqrtCol gamma S (idx - offset),
      weight_mean_i alpha kappa dim, weight_cov_i alpha kappa dim)
  else if n + offset ≤ idx ∧ idx < n + offset + d then
    (mu - sqrtCol gamma S (idx - (n + offset)),
      weight_mean_i alpha kappa dim, weight_cov_i alpha kappa dim)
  else
    (mu, weight_mean_i alpha kappa dim, weight_cov_i alpha kappa dim)

/-- `WrongSizeException` raised via `fl_throw` in `forward`. -/
inductive FlException where
  | wrongSize
deriving DecidableEq

/-- `UnscentedTransform::forward` including the fixed-capacity guard:
if the point set has a fixed number of points (`cap = some c`) and that
number differs from `number_of_points(global_dimension) = 2·n + 1`, a
`WrongSizeException` is thrown before any write, leaving the container
state unchanged; otherwise all writes are applied.  Returns the final
container state and the exception, if any. -/
noncomputable def forwardCall (alpha beta kappa : ℝ) (mu : Fin d → ℝ)
    (S : Matrix (Fin d) (Fin d) ℝ) (n offset : ℕ) (cap : Option ℕ)
    (ps : ℕ → (Fin d → ℝ) × ℝ × ℝ) :
    (ℕ → (Fin d → ℝ) × ℝ × ℝ) × Option FlException :=
  let point_count := 2 * n + 1
  match cap with
  | some c =>
      if c ≠ point_count then (ps, some FlException.wrongSize)
      else (forwardPointSet alpha beta kappa mu S n offset ps, none)
  | none => (forwardPointSet alpha beta kappa mu S n offset ps, none)

/-! ## IEEE scalars on the measurement boundary

The update policy receives its measurement vector from outside and gates
each sensor on `std::isfinite` of the slice components.  Internal
arithmetic is idealised as `ℝ`; the possibly non-finite measurement
entries are modelled explicitly. -/

/-- A `double` as seen by `std::isfinite`: either a finite real value or
a non-finite one (NaN or ±Inf). -/
inductive FlScalar where
  | finite (x : ℝ)
  | nonfinite

/-- `std::isfinite`. -/
def FlScalar.isFinite : FlScalar → Bool
  | .finite _ => true
  | .nonfinite => false

/-- The real value of a finite scalar (junk `0` on non-finite values,
which the update policy never reads: it skips the sensor first). -/
def FlScalar.toReal : FlScalar → ℝ
  | .finite x => x
  | .nonfinite => 0

/-! ## Point sets and the sigma-point quadrature

`point_set.hpp` and `sigma_point_quadrature.hpp` are not among the
sources; the operations the update policy calls on them are modelled
from spec §4.3. -/

/-- Modelled from the spec: the `PointSet` container (`point_set.hpp` is
not among the sources) — an ordered sequence of points with a
mean-weight and a covariance-weight each (spec §3, "Point Set"). -/
structure PointSetM (dim m : ℕ) where
  pts : Fin m → Fin dim → ℝ
  wm : Fin m → ℝ
  wc : Fin m → ℝ

/-- Modelled from the spec: `PointSet::mean()` — "`mean()` of a point
set = weighted sum using mean-weights" (spec §4.3). -/
def PointSetM.mean (P : PointSetM dim m) : Fin dim → ℝ :=
  fun r => ∑ i, P.wm i * P.pts i r

/-- Modelled from the spec: `PointSet::centered_points()` — "each point
minus the mean" (spec §4.3), as the `dim × m` matrix of centered
columns. -/
def PointSetM.centered_points (P : PointSetM dim m) :
    Matrix (Fin dim) (Fin m) ℝ :=
  Matrix.of fun r i => P.pts i r - P.mean r

/-- Modelled from the spec: `PointSet::covariance_weights_vector()` —
"diagonal weighting for the outer-product covariance estimator"
(spec §4.3). -/
def PointSetM.covariance_weights_vector (P : PointSetM dim m) : Fin m → ℝ :=
  P.wc

/-- Modelled from the spec: `SigmaPointQuadrature::propagate_points` —
"applying `nonlinear_fn(state_i, noise_i)` to each paired point under
the shared weight from the state point set" (spec §4.3). -/
def propagate_points (h : (Fin dx → ℝ) → (Fin dq → ℝ) → Fin dy → ℝ)
    (pX : PointSetM dx m) (pQ : PointSetM dq m) : PointSetM dy m :=
  ⟨fun i => h (pX.pts i) (pQ.pts i), pX.wm, pX.wc⟩

/-- Modelled from the spec: `solve(M, X)` — "a linear-system solve
(`M⁻¹X`) rather than an explicit inverse" (spec §4.4.g; the `solve`
helper is not among the sources). -/
noncomputable def solve (M : Matrix (Fin a) (Fin a) ℝ)
    (X : Matrix (Fin a) (Fin b) ℝ) : Matrix (Fin a) (Fin b) ℝ :=
  M⁻¹ * X

/-- Modelled from the spec: `solve(M, v)` on a vector right-hand side. -/
noncomputable def solveVec (M : Matrix (Fin a) (Fin a) ℝ)
    (v : Fin a → ℝ) : Fin a → ℝ :=
  M⁻¹ *ᵥ v

/-! ## Multi-sensor sigma-point update policy
    (`MultiSensorSigmaPointUpdatePolizzle::operator()`,
    `multi_sensor_sigma_point_update_polizzle.hpp` lines 118-253) -/

/-- The joint observation model as consumed by the update policy: a
count of local sensors, and for each sensor id `i` (selected via
`feature_model.id(i)`) the composed body and tail observation maps
`x, w ↦ feature_obsrv(body/tail_model.observation(x, w))`, plus the
mixture tail weight.  The local observation noise is the scalar
`Vector1d`. -/
structure JointModelM (dx dy : ℕ) where
  sensors : ℕ
  body : ℕ → (Fin dx → ℝ) → (Fin 1 → ℝ) → Fin dy → ℝ
  tail : ℕ → (Fin dx → ℝ) → (Fin 1 → ℝ) → Fin dy → ℝ
  tail_weight : ℝ

/-- The belief interface consumed by the update policy: `dimension()`,
`mean()`, `covariance()` (spec §6). -/
structure BeliefM (dx : ℕ) where
  dim : ℕ
  mean : Fin dx → ℝ
  cov : Matrix (Fin dx) (Fin dx) ℝ

/-- `is_valid(vector, start, end)` (lines 244-253): whether every
component in `[start, end)` is finite. -/
def is_valid (v : ℕ → FlScalar) (start stop : ℕ) : Bool :=
  (List.range (stop - start)).all fun k => (v (start + k)).isFinite

/-- The fused observation mean (line 196):
`mu_y = b * mu_y_body + t * mu_y_tail` with `b = 1 - t`. -/
def fuse_mu_y (t : ℝ) (mu_y_body mu_y_tail : Fin dy → ℝ) : Fin dy → ℝ :=
  (1 - t) • mu_y_body + t • mu_y_tail

/-- A non-centered second moment (lines 199-200):
`m_yy = c_yy + mu_y * mu_y^T`. -/
def noncentered_m_yy (c_yy : Matrix (Fin dy) (Fin dy) ℝ)
    (mu_y : Fin dy → ℝ) : Matrix (Fin dy) (Fin dy) ℝ :=
  c_yy + Matrix.vecMulVec mu_y mu_y

/-- The fused, re-centered observation covariance (lines 199-204):
mix the non-centered moments with weights `b = 1 - t` and `t`, then
subtract `mu_y * mu_y^T` for the fused mean. -/
def fuse_c_yy (t : ℝ) (c_yy_body c_yy_tail : Matrix (Fin dy) (Fin dy) ℝ)
    (mu_y_body mu_y_tail : Fin dy → ℝ) : Matrix (Fin dy) (Fin dy) ℝ :=
  ((1 - t) • noncentered_m_yy c_yy_body mu_y_body +
      t • noncentered_m_yy c_yy_tail mu_y_tail) -
    Matrix.vecMulVec (fuse_mu_y t mu_y_body mu_y_tail)
      (fuse_mu_y t mu_y_body mu_y_tail)

/-- The fused cross covariance (line 205):
`c_xy = b * c_xy_body + t * c_xy_tail`. -/
def fuse_c_xy (t : ℝ) (c_xy_body c_xy_tail : Matrix (Fin dx) (Fin dy) ℝ) :
    Matrix (Fin dx) (Fin dy) ℝ :=
  (1 - t) • c_xy_body + t • c_xy_tail

/-- Spec §4.4.e, written from the spec's words entrywise:
`mu_y = b·mu_y_body + t·mu_y_tail` with `b = 1 − t`. -/
def spec_fuse_mu_y (t : ℝ) (mu_y_body mu_y_tail : Fin dy → ℝ) :
    Fin dy → ℝ :=
  fun r => (1 - t) * mu_y_body r + t * mu_y_tail r

/-- Spec §4.4.e, written from the spec's words entrywise: reconstruct
`m_yy_body = c_yy_body + mu_y_body·mu_y_bodyᵗ` (and analogously for the
tail), mix `m_yy = b·m_yy_body + t·m_yy_tail`, re-center
`c_yy = m_yy − mu_y·mu_yᵗ`. -/
def spec_fuse_c_yy (t : ℝ) (c_yy_body c_yy_tail : Matrix (Fin dy) (Fin dy) ℝ)
    (mu_y_body mu_y_tail : Fin dy → ℝ) : Matrix (Fin dy) (Fin dy) ℝ :=
  Matrix.of fun r c =>
    ((1 - t) * (c_yy_body r c + mu_y_body r * mu_y_body c) +
        t * (c_yy_tail r c + mu_y_tail r * mu_y_tail c)) -
      spec_fuse_mu_y t mu_y_body mu_y_tail r *
        spec_fuse_mu_y t mu_y_body mu_y_tail c

/-- Spec §4.4.e, written from the spec's words entrywise:
`c_xy = b·c_xy_body + t·c_xy_tail`. -/
def spec_fuse_c_xy (t : ℝ) (c_xy_body c_xy_tail : Matrix (Fin dx) (Fin dy) ℝ) :
    Matrix (Fin dx) (Fin dy) ℝ :=
  Matrix.of fun r c => (1 - t) * c_xy_body r c + t * c_xy_tail r c

/-- One non-skipped sensor's contribution to the accumulators `(C, D)`
(lines 156-213): body and tail integration, mixture fusion, gain
`A_i = c_xy^T * c_xx_inv`, conditional covariance
`c_yy_given_x = c_yy - c_yx * c_xx_inv * c_xy`, innovation
`y_i - mu_y`, and the information increments
`A_i^T * solve(c_yy_given_x, A_i)` and
`A_i^T * solve(c_yy_given_x, innovation)`.
(The body-mean finiteness re-check of line 170 cannot fail in exact real
arithmetic, where every value is finite, and has no residue here.) -/
noncomputable def sensorDelta (model : JointModelM dx dy)
    (pX : PointSetM dx m) (pQ : PointSetM 1 m) (y : ℕ → FlScalar)
    (dim_y : ℕ) (i : ℕ) :
    Matrix (Fin dx) (Fin dx) ℝ × (Fin dx → ℝ) :=
  let X := pX.centered_points
  let W := Matrix.diagonal pX.covariance_weights_vector
  let c_xx := X * W * X.transpose
  let c_xx_inv := c_xx⁻¹
  let p_Y_body := propagate_points (model.body i) pX pQ
  let mu_y_body := p_Y_body.mean
  let Y_body := p_Y_body.centered_points
  let c_yy_body := Y_body * W * Y_body.transpose
  let c_xy_body := X * W * Y_body.transpose
  let p_Y_tail := propagate_points (model.tail i) pX pQ
  let mu_y_tail := p_Y_tail.mean
  let Y_tail := p_Y_tail.centered_points
  let c_yy_tail := Y_tail * W * Y_tail.transpose
  let c_xy_tail := X * W * Y_tail.transpose
  let t := model.tail_weight
  let mu_y := fuse_mu_y t mu_y_body mu_y_tail
  let c_yy := fuse_c_yy t c_yy_body c_yy_tail mu_y_body mu_y_tail
  let c_xy := fuse_c_xy t c_xy_body c_xy_tail
  let c_yx := c_xy.transpose
  let A_i := c_yx * c_xx_inv
  let c_yy_given_x := c_yy - c_yx * c_xx_inv * c_xy
  let innovation := (fun k : Fin dy => (y (i * dim_y + k)).toReal) - mu_y
  (A_i.transpose * solve c_yy_given_x A_i,
    A_i.transpose *ᵥ solveVec c_yy_given_x innovation)

/-- The per-sensor accumulation loop (lines 151-214) run over an
explicit list of sensor indices: starting from
`(C, D) = (c_xx_inv, 0)`, each index whose measurement slice is valid
adds its `sensorDelta`; an invalid slice leaves `(C, D)` unchanged
(`continue`). -/
noncomputable def updateLoopOver (model : JointModelM dx dy)
    (pX : PointSetM dx m) (pQ : PointSetM 1 m) (y : ℕ → FlScalar)
    (dim_y : ℕ) (l : List ℕ) :
    Matrix (Fin dx) (Fin dx) ℝ × (Fin dx → ℝ) :=
  let X := pX.centered_points
  let W := Matrix.diagonal pX.covariance_weights_vector
  let c_xx := X * W * X.transpose
  let c_xx_inv := c_xx⁻¹
  l.foldl
    (fun CD i =>
      if is_valid y (i * dim_y) (i * dim_y + dim_y) then
        (CD.1 + (sensorDelta model pX pQ y dim_y i).1,
          CD.2 + (sensorDelta model pX pQ y dim_y i).2)
      else CD)
    (c_xx_inv, 0)

/-- `MultiSensorSigmaPointUpdatePolizzle::operator()` (lines 118-222),
given the sigma-point sets `p_X`, `p_Q` produced by
`quadrature.transform_to_points` and the measurement vector `y` of size
`y_size`: computes `mu_x`, runs the per-sensor loop over
`0 .. sensor_count - 1` with `dim_y = y.size() / sensor_count`, and
finalizes the posterior with `dimension = prior.dimension()`,
`covariance = C⁻¹` and `mean = mu_x + covariance * D`. -/
noncomputable def updatePolicyOver (model : JointModelM dx dy)
    (pX : PointSetM dx m) (pQ : PointSetM 1 m) (y : ℕ → FlScalar)
    (y_size : ℕ) (prior : BeliefM dx) (l : List ℕ) : BeliefM dx :=
  let mu_x := pX.mean
  let dim_y := y_size / model.sensors
  let CD := updateLoopOver model pX pQ y dim_y l
  { dim := prior.dim
    cov := CD.1⁻¹
    mean := mu_x + CD.1⁻¹ *ᵥ CD.2 }

/-- The update policy proper: the loop runs over sensors
`0 .. sensor_count - 1`. -/
noncomputable def updatePolicy (model : JointModelM dx dy)
    (pX : PointSetM dx m) (pQ : PointSetM 1 m) (y : ℕ → FlScalar)
    (y_size : ℕ) (prior : BeliefM dx) : BeliefM dx :=
  updatePolicyOver model pX pQ y y_size prior (List.range model.sensors)

/-- Claim C1's description of the update, written from the spec's words
(spec §4.4): `C = c_xx⁻¹ + Σ_{valid i} A_iᵀ·solve(c_yy_given_x, A_i)`,
`D = Σ_{valid i} A_iᵀ·solve(c_yy_given_x, innovation)`, posterior
covariance `C⁻¹`, posterior mean `mu_x + posterior_covariance · D`,
with `c_xx = X·W·Xᵀ` from the sigma points. -/
noncomputable def specPosterior (model : JointModelM dx dy)
    (pX : PointSetM dx m) (pQ : PointSetM 1 m) (y : ℕ → FlScalar)
    (y_size : ℕ) (prior : BeliefM dx) : BeliefM dx :=
  let mu_x := pX.mean
  let dim_y := y_size / model.sensors
  let X := pX.centered_points
  let W := Matrix.diagonal pX.covariance_weights_vector
  let c_xx := X * W * X.transpose
  let C := c_xx⁻¹ + ∑ i ∈ Finset.range model.sensors,
    if is_valid y (i * dim_y) (i * dim_y + dim_y) then
      (sensorDelta model pX pQ y dim_y i).1
    else 0
  let D : Fin dx → ℝ := ∑ i ∈ Finset.range model.sensors,
    if is_valid y (i * dim_y) (i * dim_y + dim_y) then
      (sensorDelta model pX pQ y dim_y i).2
    else 0
  { dim := prior.dim
    cov := C⁻¹
    mean := mu_x + C⁻¹ *ᵥ D }

/-! ## Gaussian belief container
    (`ff::Gaussian`, `fast_filtering/distributions/gaussian.hpp`) -/

/-- The state of a `ff::Gaussian<Vector>` of dimension `dv`: mean,
covariance and the derived quantities recomputed by the `Covariance`
setter.  (The LDLT-based `cholesky_factor_` is used only by
`MapStandardGaussian`, which no claim touches; it is not carried
here.) -/
structure GaussianState (dv : ℕ) where
  mean : Fin dv → ℝ
  covariance : Matrix (Fin dv) (Fin dv) ℝ
  full_rank : Bool
  precision : Matrix (Fin dv) (Fin dv) ℝ
  log_normalizer : ℝ

/-- `Gaussian::Covariance(covariance)` (lines 140-161): stores the
covariance; if its rank equals its row count, sets `full_rank`,
`precision = covariance⁻¹` and
`log_normalizer = -0.5·(log det covariance + n·log 2π)`; otherwise only
clears `full_rank` (precision and log-normalizer keep their previous,
stale values). -/
noncomputable def setCovariance (g : GaussianState dv)
    (S : Matrix (Fin dv) (Fin dv) ℝ) : GaussianState dv :=
  if S.rank = dv then
    { g with
        covariance := S
        full_rank := true
        precision := S⁻¹
        log_normalizer :=
          -(1 / 2) * (Real.log S.det + (dv : ℝ) * Real.log (2 * Real.pi)) }
  else
    { g with covariance := S, full_rank := false }

/-- `Gaussian::LogProbability(vector)` (lines 173-179): the log-density
`log_normalizer - 0.5·(x - mean)ᵀ·precision·(x - mean)` when the belief
is marked full rank, `-infinity` otherwise (value in `EReal`, whose
`⊥` is `-∞`). -/
noncomputable def logProbability (g : GaussianState dv)
    (x : Fin dv → ℝ) : EReal :=
  if g.full_rank then
    ((g.log_normalizer -
        1 / 2 * dotProduct (x - g.mean) (g.precision *ᵥ (x - g.mean)) : ℝ) :
      EReal)
  else
    ⊥

/-! ## State-transition density interface
    (`fl::StateTransitionDensity`, `state_transition_density.hpp`) -/

/-- `StateTransitionDensity::log_probabilities` (lines 72-90): the array
with `probs[i] = log_probability(states[i], cond_states[i],
cond_inputs[i], dt)` for `i` below the batch size.  Arrays are modelled
as index maps plus the explicit batch size `size = states.size()`. -/
def log_probabilities {S U : Type} (log_probability : S → S → U → ℝ → ℝ)
    (size : ℕ) (states cond_states : ℕ → S) (cond_inputs : ℕ → U)
    (dt : ℝ) : List ℝ :=
  (List.range size).map fun i =>
    log_probability (states i) (cond_states i) (cond_inputs i) dt

/-- `StateTransitionDensity::probabilities` (lines 92-98): as written in
the source, `log_probabilities(states, cond_inputs, cond_inputs,
dt).exp()` — the `cond_inputs` array is passed both as the
`cond_states` and the `cond_inputs` argument (which typechecks when the
state and input types coincide). -/
noncomputable def probabilities {S : Type}
    (log_probability : S → S → S → ℝ → ℝ) (size : ℕ)
    (states cond_states cond_inputs : ℕ → S) (dt : ℝ) : List ℝ :=
  (log_probabilities log_probability size states cond_inputs cond_inputs
      dt).map Real.exp

end Fl

/-! # Theorems

Helper lemmas first, then one theorem per claim (with witnesses and
counterexamples where called for). -/

namespace Fl

theorem lambda_scalar_eq_spec (alpha kappa dim : ℝ) :
    lambda_scalar alpha kappa dim = spec_lambda alpha kappa dim := by
  simp [lambda_scalar, spec_lambda, sq]

end Fl

/-- C2: the sigma-point generator's scalars match the spec formulas
exactly: `lambda = alpha²·(n + kappa) − n`, `w_mean_0 = lambda/(n + lambda)`,
`w_cov_0 = w_mean_0 + (1 − alpha² + beta)`,
`w_mean_i = w_cov_i = 1/(2·(n + lambda))`, and `gamma = sqrt(n + lambda)`. -/
theorem C2_unscented_scalars_match_spec (alpha beta kappa dim : ℝ) :
    Fl.lambda_scalar alpha kappa dim = Fl.spec_lambda alpha kappa dim ∧
    Fl.weight_mean_0 alpha kappa dim = Fl.spec_w_mean_0 alpha kappa dim ∧
    Fl.weight_cov_0 alpha beta kappa dim = Fl.spec_w_cov_0 alpha beta kappa dim ∧
    Fl.weight_mean_i alpha kappa dim = Fl.spec_w_i alpha kappa dim ∧
    Fl.weight_cov_i alpha kappa dim = Fl.spec_w_i alpha kappa dim ∧
    Fl.gamma_factor alpha kappa dim = Fl.spec_gamma alpha kappa dim := by
  refine ⟨Fl.lambda_scalar_eq_spec alpha kappa dim, ?_, ?_, ?_, ?_, ?_⟩ <;>
    simp [Fl.weight_mean_0, Fl.spec_w_mean_0, Fl.weight_cov_0, Fl.spec_w_cov_0,
      Fl.weight_mean_i, Fl.spec_w_i, Fl.weight_cov_i, Fl.gamma_factor,
      Fl.spec_gamma, Fl.lambda_scalar_eq_spec, sq]

namespace Fl

/-- A guarded accumulate-fold over `0 .. N-1` is the initial value plus
the sum of the guarded increments. -/
theorem foldl_if_add {M V : Type} [AddCommMonoid M] [AddCommMonoid V]
    (p : ℕ → Bool) (F : ℕ → M) (G : ℕ → V) (C0 : M) (D0 : V) (N : ℕ) :
    (List.range N).foldl
        (fun CD i => if p i then (CD.1 + F i, CD.2 + G i) else CD)
        (C0, D0) =
      (C0 + ∑ i ∈ Finset.range N, if p i then F i else 0,
        D0 + ∑ i ∈ Finset.range N, if p i then G i else 0) := by
  induction N with
  | zero => simp
  | succ n ih =>
      rw [List.range_succ, List.foldl_append, ih]
      by_cases h : p n <;>
        simp [h, Finset.sum_range_succ, add_assoc]

/-- Folding a step that fixes every state at index `i` is the same as
folding over the list with `i` filtered out. -/
theorem foldl_filter_of_fixed {β : Type} (f : β → ℕ → β) (i : ℕ)
    (hfix : ∀ b, f b i = b) (l : List ℕ) (init : β) :
    l.foldl f init = (l.filter fun j => j ≠ i).foldl f init := by
  induction l generalizing init with
  | nil => rfl
  | cons a tl ih =>
      by_cases h : a = i
      · subst h
        rw [List.foldl_cons, hfix]
        rw [ih]
        congr 1
        simp [List.filter_cons]
      · rw [List.foldl_cons]
        rw [ih]
        have : (a :: tl).filter (fun j => j ≠ i) =
            a :: tl.filter (fun j => j ≠ i) := by
          simp [List.filter_cons, h]
        rw [this, List.foldl_cons]

/-- The sensor loop, unrolled to the information sums of spec §4.4. -/
theorem updateLoopOver_range_eq_sums (model : JointModelM dx dy)
    (pX : PointSetM dx m) (pQ : PointSetM 1 m) (y : ℕ → FlScalar)
    (dim_y N : ℕ) :
    updateLoopOver model pX pQ y dim_y (List.range N) =
      ((pX.centered_points * Matrix.diagonal pX.covariance_weights_vector *
            pX.centered_points.transpose)⁻¹ +
          ∑ i ∈ Finset.range N,
            (if is_valid y (i * dim_y) (i * dim_y + dim_y) then
              (sensorDelta model pX pQ y dim_y i).1
            else 0),
        ∑ i ∈ Finset.range N,
          if is_valid y (i * dim_y) (i * dim_y + dim_y) then
            (sensorDelta model pX pQ y dim_y i).2
          else 0) := by
  unfold updateLoopOver
  rw [foldl_if_add]
  simp

end Fl

/-- C4: for every sensor that is not skipped, the body and tail
quadrature results are fused with `t = tail_weight`, `b = 1 − t` as
`mu_y = b·mu_y_body + t·mu_y_tail`,
`m_yy_body = c_yy_body + mu_y_body·mu_y_bodyᵀ` (and analogously for the
tail), `m_yy = b·m_yy_body + t·m_yy_tail`, `c_yy = m_yy − mu_y·mu_yᵀ`,
and `c_xy = b·c_xy_body + t·c_xy_tail`: the update policy's fusion
step computes exactly the spec's formulas. -/
theorem C4_mixture_fusion_matches_spec (t : ℝ) (mu_b mu_t : Fin dy → ℝ)
    (cb ct : Matrix (Fin dy) (Fin dy) ℝ)
    (cxb cxt : Matrix (Fin dx) (Fin dy) ℝ) :
    Fl.fuse_mu_y t mu_b mu_t = Fl.spec_fuse_mu_y t mu_b mu_t ∧
    Fl.fuse_c_yy t cb ct mu_b mu_t = Fl.spec_fuse_c_yy t cb ct mu_b mu_t ∧
    Fl.fuse_c_xy t cxb cxt = Fl.spec_fuse_c_xy t cxb cxt := by
  refine ⟨?_, ?_, ?_⟩
  · funext r
    simp [Fl.fuse_mu_y, Fl.spec_fuse_mu_y]
  · ext r c
    simp [Fl.fuse_c_yy, Fl.spec_fuse_c_yy, Fl.noncentered_m_yy,
      Fl.fuse_mu_y, Fl.spec_fuse_mu_y, Matrix.vecMulVec_apply,
      Matrix.add_apply, Matrix.sub_apply, Matrix.smul_apply, smul_eq_mul,
      mul_add]
  · ext r c
    simp [Fl.fuse_c_xy, Fl.spec_fuse_c_xy, Matrix.add_apply,
      Matrix.smul_apply, smul_eq_mul]

/-- C7: a `forward` call on a fixed-capacity point set whose capacity
differs from `2·global_dimension + 1` raises `WrongSizeException` (and
exactly then), and in that case the point-set state is returned
unmutated. -/
theorem C7_fixed_capacity_size_check (alpha beta kappa : ℝ)
    (mu : Fin d → ℝ) (S : Matrix (Fin d) (Fin d) ℝ) (n offset : ℕ)
    (cap : Option ℕ) (ps : ℕ → (Fin d → ℝ) × ℝ × ℝ) :
    ((Fl.forwardCall alpha beta kappa mu S n offset cap ps).2 =
        some Fl.FlException.wrongSize ↔
      ∃ c, cap = some c ∧ c ≠ 2 * n + 1) ∧
    (∀ c, cap = some c → c ≠ 2 * n + 1 →
      (Fl.forwardCall alpha beta kappa mu S n offset cap ps).1 = ps) := by
  constructor
  · constructor
    · intro h
      match cap with
      | none => simp [Fl.forwardCall] at h
      | some c =>
          refine ⟨c, rfl, ?_⟩
          intro hc
          simp [Fl.forwardCall, hc] at h
    · rintro ⟨c, rfl, hc⟩
      simp [Fl.forwardCall, hc]
  · intro c hcap hc
    subst hcap
    simp [Fl.forwardCall, hc]

/-- C7 witness: with global dimension 1 a fixed capacity of 5 (≠ 3)
fails with `WrongSizeException` and leaves the container untouched. -/
theorem C7_fixed_capacity_size_check_witness :
    (Fl.forwardCall 1 2 0 (fun _ : Fin 1 => (0 : ℝ)) 1 1 0 (some 5)
        (fun _ => (fun _ => 0, 0, 0))).2 = some Fl.FlException.wrongSize ∧
    (Fl.forwardCall 1 2 0 (fun _ : Fin 1 => (0 : ℝ)) 1 1 0 (some 5)
        (fun _ => (fun _ => 0, 0, 0))).1 = fun _ => (fun _ => 0, 0, 0) := by
  constructor
  · exact (C7_fixed_capacity_size_check 1 2 0 (fun _ => 0) 1 1 0 (some 5)
      (fun _ => (fun _ => 0, 0, 0))).1.mpr ⟨5, rfl, by decide⟩
  · exact (C7_fixed_capacity_size_check 1 2 0 (fun _ => 0) 1 1 0 (some 5)
      (fun _ => (fun _ => 0, 0, 0))).2 5 rfl (by decide)

/-- C8: after setting a covariance `S`, the log-density evaluator
returns `log_normalizer − 0.5·(x − mean)ᵀ·precision·(x − mean)` with
`precision = S⁻¹` and
`log_normalizer = −0.5·(log det S + n·log 2π)` when `S` was determined
full rank, and `−∞` otherwise. -/
theorem C8_log_density_full_rank_gate (g : Fl.GaussianState dv)
    (S : Matrix (Fin dv) (Fin dv) ℝ) (x : Fin dv → ℝ) :
    Fl.logProbability (Fl.setCovariance g S) x =
      if S.rank = dv then
        ((-(1 / 2) * (Real.log S.det + (dv : ℝ) * Real.log (2 * Real.pi)) -
            1 / 2 * dotProduct (x - g.mean) (S⁻¹ *ᵥ (x - g.mean)) : ℝ) :
          EReal)
      else ⊥ := by
  by_cases h : S.rank = dv <;>
    simp [Fl.setCovariance, Fl.logProbability, h]

/-- C9: `probabilities()` returns the elementwise exponential of
`log_probabilities(states, cond_inputs, cond_inputs, dt)` — the
`cond_inputs` array is passed for the `cond_states` parameter — and is
therefore independent of the `cond_states` argument. -/
theorem C9_probabilities_passes_cond_inputs_twice {St : Type}
    (log_probability : St → St → St → ℝ → ℝ) (size : ℕ)
    (states cond_states cond_inputs : ℕ → St) (dt : ℝ) :
    Fl.probabilities log_probability size states cond_states cond_inputs
        dt =
      (Fl.log_probabilities log_probability size states cond_inputs
          cond_inputs dt).map Real.exp ∧
    ∀ cond_states' : ℕ → St,
      Fl.probabilities log_probability size states cond_states'
          cond_inputs dt =
        Fl.probabilities log_probability size states cond_states
          cond_inputs dt := by
  exact ⟨rfl, fun _ => rfl⟩

/-- C1: one multi-sensor update call computes `mu_x`, `X` and `W` from
the sigma points, sets `c_xx = X·W·Xᵀ`, starts the accumulators at
`C = c_xx⁻¹`, `D = 0`, adds `A_iᵀ·solve(c_yy_given_x, A_i)` and
`A_iᵀ·solve(c_yy_given_x, innovation)` for every non-skipped sensor,
and returns posterior covariance `C⁻¹` and posterior mean
`mu_x + posterior_covariance·D` — i.e. it equals the information-form
posterior written out as spec §4.4's sums. -/
theorem C1_information_form_update (model : Fl.JointModelM dx dy)
    (pX : Fl.PointSetM dx m) (pQ : Fl.PointSetM 1 m) (y : ℕ → Fl.FlScalar)
    (y_size : ℕ) (prior : Fl.BeliefM dx) :
    Fl.updatePolicy model pX pQ y y_size prior =
      Fl.specPosterior model pX pQ y y_size prior := by
  unfold Fl.updatePolicy Fl.updatePolicyOver Fl.specPosterior
  dsimp only
  rw [Fl.updateLoopOver_range_eq_sums]

/-- C3: a sensor whose measurement slice contains a non-finite component
contributes no change to the accumulators `(C, D)`: the loop result, and
with it the whole update result, is identical to running the update with
that sensor omitted from the loop. -/
theorem C3_invalid_sensor_skipped (model : Fl.JointModelM dx dy)
    (pX : Fl.PointSetM dx m) (pQ : Fl.PointSetM 1 m) (y : ℕ → Fl.FlScalar)
    (y_size : ℕ) (prior : Fl.BeliefM dx) (i : ℕ) (hi : i < model.sensors)
    (hbad : Fl.is_valid y (i * (y_size / model.sensors))
        (i * (y_size / model.sensors) + y_size / model.sensors) = false) :
    Fl.updateLoopOver model pX pQ y (y_size / model.sensors)
        (List.range model.sensors) =
      Fl.updateLoopOver model pX pQ y (y_size / model.sensors)
        ((List.range model.sensors).filter fun j => j ≠ i) ∧
    Fl.updatePolicy model pX pQ y y_size prior =
      Fl.updatePolicyOver model pX pQ y y_size prior
        ((List.range model.sensors).filter fun j => j ≠ i) := by
  have hloop :
      Fl.updateLoopOver model pX pQ y (y_size / model.sensors)
          (List.range model.sensors) =
        Fl.updateLoopOver model pX pQ y (y_size / model.sensors)
          ((List.range model.sensors).filter fun j => j ≠ i) := by
    unfold Fl.updateLoopOver
    exact Fl.foldl_filter_of_fixed _ i (fun b => by simp [hbad]) _ _
  refine ⟨hloop, ?_⟩
  unfold Fl.updatePolicy Fl.updatePolicyOver
  dsimp only
  rw [hloop]

/-- C3 witness: two sensors, sensor 0's measurement is NaN/Inf; the
update equals the update with sensor 0 omitted. -/
theorem C3_invalid_sensor_skipped_witness :
    0 < (2 : ℕ) ∧
    Fl.is_valid (fun k => if k = 0 then .nonfinite else .finite 1) 0 1 =
      false ∧
    Fl.updatePolicy
        (⟨2, fun _ _ _ _ => 0, fun _ _ _ _ => 0, 0⟩ : Fl.JointModelM 1 1)
        (⟨fun _ _ => 0, fun _ => 1, fun _ => 1⟩ : Fl.PointSetM 1 1)
        (⟨fun _ _ => 0, fun _ => 1, fun _ => 1⟩ : Fl.PointSetM 1 1)
        (fun k => if k = 0 then .nonfinite else .finite 1) 2
        (⟨1, fun _ => 0, 1⟩ : Fl.BeliefM 1) =
      Fl.updatePolicyOver
        (⟨2, fun _ _ _ _ => 0, fun _ _ _ _ => 0, 0⟩ : Fl.JointModelM 1 1)
        (⟨fun _ _ => 0, fun _ => 1, fun _ => 1⟩ : Fl.PointSetM 1 1)
        (⟨fun _ _ => 0, fun _ => 1, fun _ => 1⟩ : Fl.PointSetM 1 1)
        (fun k => if k = 0 then .nonfinite else .finite 1) 2
        (⟨1, fun _ => 0, 1⟩ : Fl.BeliefM 1)
        ((List.range 2).filter fun j => j ≠ 0) := by
  refine ⟨by decide, by decide, ?_⟩
  exact (C3_invalid_sensor_skipped
      (⟨2, fun _ _ _ _ => 0, fun _ _ _ _ => 0, 0⟩ : Fl.JointModelM 1 1)
      (⟨fun _ _ => 0, fun _ => 1, fun _ => 1⟩ : Fl.PointSetM 1 1)
      (⟨fun _ _ => 0, fun _ => 1, fun _ => 1⟩ : Fl.PointSetM 1 1)
      (fun k => if k = 0 then .nonfinite else .finite 1) 2
      (⟨1, fun _ => 0, 1⟩ : Fl.BeliefM 1) 0 (by decide) (by decide)).2

/-- C10: when every sensor is skipped, the accumulators keep their
initial values `C = c_xx⁻¹`, `D = 0`, so the posterior is the
sigma-point reconstruction of the prior: covariance `(c_xx⁻¹)⁻¹` with
`c_xx = X·W·Xᵀ`, mean `mu_x`, and the prior's dimension. -/
theorem C10_all_sensors_skipped (model : Fl.JointModelM dx dy)
    (pX : Fl.PointSetM dx m) (pQ : Fl.PointSetM 1 m) (y : ℕ → Fl.FlScalar)
    (y_size : ℕ) (prior : Fl.BeliefM dx)
    (hall : ∀ i, i < model.sensors →
      Fl.is_valid y (i * (y_size / model.sensors))
        (i * (y_size / model.sensors) + y_size / model.sensors) = false) :
    Fl.updatePolicy model pX pQ y y_size prior =
      { dim := prior.dim
        cov := ((pX.centered_points *
            Matrix.diagonal pX.covariance_weights_vector *
            pX.centered_points.transpose)⁻¹)⁻¹
        mean := pX.mean } := by
  unfold Fl.updatePolicy Fl.updatePolicyOver
  dsimp only
  rw [Fl.updateLoopOver_range_eq_sums]
  have hC :
      (∑ i ∈ Finset.range model.sensors,
        if Fl.is_valid y (i * (y_size / model.sensors))
            (i * (y_size / model.sensors) + y_size / model.sensors) then
          (Fl.sensorDelta model pX pQ y (y_size / model.sensors) i).1
        else 0) = 0 := by
    refine Finset.sum_eq_zero fun i hi => ?_
    simp [hall i (Finset.mem_range.mp hi)]
  have hD :
      (∑ i ∈ Finset.range model.sensors,
        if Fl.is_valid y (i * (y_size / model.sensors))
            (i * (y_size / model.sensors) + y_size / model.sensors) then
          (Fl.sensorDelta model pX pQ y (y_size / model.sensors) i).2
        else 0) = 0 := by
    refine Finset.sum_eq_zero fun i hi => ?_
    simp [hall i (Finset.mem_range.mp hi)]
  rw [hC, hD]
  simp [Matrix.mulVec_zero]

/-- C10 witness: one sensor with a non-finite measurement; the
posterior is `((c_xx)⁻¹)⁻¹` with the prior's mean and dimension. -/
theorem C10_all_sensors_skipped_witness :
    (∀ i, i < (1 : ℕ) →
      Fl.is_valid (fun _ => Fl.FlScalar.nonfinite) (i * (1 / 1))
        (i * (1 / 1) + 1 / 1) = false) ∧
    Fl.updatePolicy
        (⟨1, fun _ _ _ _ => 0, fun _ _ _ _ => 0, 0⟩ : Fl.JointModelM 1 1)
        (⟨fun _ _ => 0, fun _ => 1, fun _ => 1⟩ : Fl.PointSetM 1 1)
        (⟨fun _ _ => 0, fun _ => 1, fun _ => 1⟩ : Fl.PointSetM 1 1)
        (fun _ => Fl.FlScalar.nonfinite) 1
        (⟨1, fun _ => 0, 1⟩ : Fl.BeliefM 1) =
      { dim := 1
        cov := (((⟨fun _ _ => 0, fun _ => 1, fun _ => 1⟩ :
              Fl.PointSetM 1 1).centered_points *
            Matrix.diagonal (⟨fun _ _ => 0, fun _ => 1, fun _ => 1⟩ :
              Fl.PointSetM 1 1).covariance_weights_vector *
            (⟨fun _ _ => 0, fun _ => 1, fun _ => 1⟩ :
              Fl.PointSetM 1 1).centered_points.transpose)⁻¹)⁻¹
        mean := (⟨fun _ _ => 0, fun _ => 1, fun _ => 1⟩ :
          Fl.PointSetM 1 1).mean } := by
  refine ⟨by decide, ?_⟩
  exact C10_all_sensors_skipped
    (⟨1, fun _ _ _ _ => 0, fun _ _ _ _ => 0, 0⟩ : Fl.JointModelM 1 1)
    (⟨fun _ _ => 0, fun _ => 1, fun _ => 1⟩ : Fl.PointSetM 1 1)
    (⟨fun _ _ => 0, fun _ => 1, fun _ => 1⟩ : Fl.PointSetM 1 1)
    (fun _ => Fl.FlScalar.nonfinite) 1
    (⟨1, fun _ => 0, 1⟩ : Fl.BeliefM 1) (by decide)

namespace Fl

/-- Filtering one loop's writes for a target index: the loop writes
index `m` at most once, in its lower range `[a, a + c)` with value
`f (m - a)` or its upper range `[n + a, n + a + c)` with value
`g (m - (n + a))`. -/
theorem pairWrites_filter_idx {d : ℕ} (n a c : ℕ) (f g : ℕ → Fin d → ℝ)
    (wm wc : ℝ) (hcn : c ≤ n) (m : ℕ) :
    (pairWrites n a c f g wm wc).filter (fun w => w.idx = m) =
      if a ≤ m ∧ m < a + c then [⟨m, f (m - a), wm, wc⟩]
      else if n + a ≤ m ∧ m < n + a + c then [⟨m, g (m - (n + a)), wm, wc⟩]
      else [] := by
  induction c with
  | zero =>
      simp only [pairWrites, List.range_zero, List.flatMap_nil,
        List.filter_nil]
      rw [if_neg (by omega), if_neg (by omega)]
  | succ c ih =>
      have hstep : pairWrites n a (c + 1) f g wm wc =
          pairWrites n a c f g wm wc ++
            [⟨a + c, f c, wm, wc⟩, ⟨n + (a + c), g c, wm, wc⟩] := by
        unfold pairWrites
        rw [List.range_succ, List.flatMap_append]
        simp
      rw [hstep, List.filter_append, ih (by omega)]
      by_cases h1 : m = a + c
      · subst h1
        rw [if_neg (by omega), if_neg (by omega),
          List.filter_cons_of_pos (by simp),
          List.filter_cons_of_neg (by simp; omega), List.filter_nil,
          List.nil_append, if_pos (by omega), Nat.add_sub_cancel_left]
      · by_cases h2 : m = n + (a + c)
        · subst h2
          rw [if_neg (by omega), if_neg (by omega),
            List.filter_cons_of_neg (by simp; omega),
            List.filter_cons_of_pos (by simp), List.filter_nil,
            List.nil_append, if_neg (by omega), if_pos (by omega),
            show n + (a + c) - (n + a) = c from by omega]
        · have h1' : ¬(a + c = m) := fun h => h1 h.symm
          have h2' : ¬(n + (a + c) = m) := fun h => h2 h.symm
          rw [List.filter_cons_of_neg (by simp [h1']),
            List.filter_cons_of_neg (by simp [h2']), List.filter_nil,
            List.append_nil]
          have e1 : (a ≤ m ∧ m < a + c) ↔ (a ≤ m ∧ m < a + (c + 1)) := by
            omega
          have e2 : (n + a ≤ m ∧ m < n + a + c) ↔
              (n + a ≤ m ∧ m < n + a + (c + 1)) := by omega
          exact if_congr e1 rfl (if_congr e2 rfl rfl)

/-- `forward` performs, at each target index `m`, exactly the write
`utWriteAt m`: each index below `2·n + 1` is written exactly once, with
the layout of the amended claim, and no other index is written. -/
theorem forwardWrites_filter_idx {d : ℕ} (alpha beta kappa : ℝ)
    (mu : Fin d → ℝ) (S : Matrix (Fin d) (Fin d) ℝ) (n offset : ℕ)
    (hod : offset + d ≤ n) (m : ℕ) :
    (forwardWrites alpha beta kappa mu S n offset).filter
        (fun w => w.idx = m) =
      utWriteAt alpha beta kappa mu S n offset m := by
  unfold forwardWrites utWriteAt
  dsimp only
  by_cases h0 : m = 0
  · subst h0
    rw [List.filter_cons_of_pos (by simp), List.filter_append,
      List.filter_append,
      pairWrites_filter_idx n 1 offset _ _ _ _ (by omega) 0,
      pairWrites_filter_idx n (1 + offset) d _ _ _ _ (by omega) 0,
      pairWrites_filter_idx n (1 + offset + d) (n - offset - d) _ _ _ _
        (by omega) 0]
    rw [if_neg (by omega), if_neg (by omega), if_neg (by omega),
      if_neg (by omega), if_neg (by omega), if_neg (by omega), if_pos rfl]
    rfl
  · rw [List.filter_cons_of_neg (by simp [Ne.symm h0]), List.filter_append,
      List.filter_append,
      pairWrites_filter_idx n 1 offset _ _ _ _ (by omega) m,
      pairWrites_filter_idx n (1 + offset) d _ _ _ _ (by omega) m,
      pairWrites_filter_idx n (1 + offset + d) (n - offset - d) _ _ _ _
        (by omega) m]
    rw [if_neg h0]
    split_ifs <;> first
      | rfl
      | (exfalso; omega)

/-- Evaluating the container after a write sequence that touches an
index exactly once yields that write's contents. -/
theorem applyWrites_filter_singleton {d : ℕ} (ws : List (PointWrite d))
    (init : ℕ → (Fin d → ℝ) × ℝ × ℝ) (m : ℕ) (p : Fin d → ℝ) (wa wb : ℝ)
    (hw : ws.filter (fun x => x.idx = m) = [⟨m, p, wa, wb⟩]) :
    applyWrites ws init m = (p, wa, wb) := by
  induction ws using List.reverseRecOn with
  | nil => simp at hw
  | append_singleton l x ih =>
      rw [List.filter_append] at hw
      unfold applyWrites at ih ⊢
      rw [List.foldl_append, List.foldl_cons, List.foldl_nil]
      by_cases hx : x.idx = m
      · rw [List.filter_cons_of_pos (by simp [hx]), List.filter_nil] at hw
        have hlen := congrArg List.length hw
        simp only [List.length_append, List.length_cons, List.length_nil,
          List.length_singleton] at hlen
        have hfl : l.filter (fun w => w.idx = m) = [] :=
          List.eq_nil_of_length_eq_zero (by omega)
        rw [hfl, List.nil_append] at hw
        have hx2 : x = ⟨m, p, wa, wb⟩ := by simpa using hw
        subst hx2
        simp [Function.update_same]
      · rw [List.filter_cons_of_neg (by simp [hx]), List.filter_nil,
          List.append_nil] at hw
        rw [Function.update_noteq (fun h => hx h.symm)]
        exact ih hw

/-- One loop performs `2·c` writes. -/
theorem pairWrites_length {d : ℕ} (n a c : ℕ) (f g : ℕ → Fin d → ℝ)
    (wm wc : ℝ) : (pairWrites n a c f g wm wc).length = 2 * c := by
  induction c with
  | zero => rfl
  | succ c ih =>
      unfold pairWrites at ih ⊢
      rw [List.range_succ, List.flatMap_append]
      simp only [List.length_append, ih]
      simp
      omega

/-- `forward` performs `2·n + 1` writes. -/
theorem forwardWrites_length {d : ℕ} (alpha beta kappa : ℝ)
    (mu : Fin d → ℝ) (S : Matrix (Fin d) (Fin d) ℝ) (n offset : ℕ)
    (hod : offset + d ≤ n) :
    (forwardWrites alpha beta kappa mu S n offset).length = 2 * n + 1 := by
  unfold forwardWrites
  dsimp only
  simp only [List.length_cons, List.length_append, pairWrites_length]
  omega

/-- The generated container agrees with the closed-form layout
`utLayout` at every index below `2·n + 1`, whatever its initial
contents. -/
theorem forwardPointSet_eq_utLayout {d : ℕ} (alpha beta kappa : ℝ)
    (mu : Fin d → ℝ) (S : Matrix (Fin d) (Fin d) ℝ) (n offset : ℕ)
    (hod : offset + d ≤ n) (m : ℕ) (hm : m < 2 * n + 1)
    (init : ℕ → (Fin d → ℝ) × ℝ × ℝ) :
    forwardPointSet alpha beta kappa mu S n offset init m =
      utLayout alpha beta kappa mu S n offset m := by
  have hf := forwardWrites_filter_idx alpha beta kappa mu S n offset hod m
  unfold utWriteAt at hf
  dsimp only at hf
  unfold forwardPointSet utLayout
  dsimp only
  by_cases h0 : m = 0
  · subst h0
    rw [if_pos rfl] at hf ⊢
    exact applyWrites_filter_singleton _ init 0 _ _ _ hf
  · rw [if_neg h0] at hf ⊢
    by_cases hA : 1 + offset ≤ m ∧ m < 1 + offset + d
    · rw [if_pos hA] at hf ⊢
      exact applyWrites_filter_singleton _ init m _ _ _ hf
    · rw [if_neg hA] at hf ⊢
      by_cases hB : n + (1 + offset) ≤ m ∧ m < n + (1 + offset) + d
      · rw [if_pos hB] at hf ⊢
        exact applyWrites_filter_singleton _ init m _ _ _ hf
      · rw [if_neg hB] at hf ⊢
        rw [if_pos hm] at hf
        exact applyWrites_filter_singleton _ init m _ _ _ hf

end Fl

/-- C5 (amended): for a belief of dimension `d` embedded at `offset`
into global dimension `n` with `offset + d ≤ n`, `forward` performs
exactly `2·n + 1` writes, writing each index below `2·n + 1` exactly
once and no other index; index 0 receives the mean with weights
`(w_mean_0, w_cov_0)`; the symmetric pair `mean ± column k` of
`square_root · gamma` sits at indices `offset + 1 + k` and
`n + offset + 1 + k` for `k < d` (one past the claim's
`[offset, offset + dim)` bracket, since index 0 holds the mean); every
other index receives the mean unchanged with weights
`(w_mean_i, w_cov_i)`. -/
theorem C5_point_layout {d : ℕ} (alpha beta kappa : ℝ) (mu : Fin d → ℝ)
    (S : Matrix (Fin d) (Fin d) ℝ) (n offset : ℕ)
    (hod : offset + d ≤ n) :
    (Fl.forwardWrites alpha beta kappa mu S n offset).length = 2 * n + 1 ∧
    (∀ m : ℕ,
      (Fl.forwardWrites alpha beta kappa mu S n offset).filter
          (fun w => w.idx = m) =
        Fl.utWriteAt alpha beta kappa mu S n offset m) ∧
    (∀ init : ℕ → (Fin d → ℝ) × ℝ × ℝ, ∀ m : ℕ, m < 2 * n + 1 →
      Fl.forwardPointSet alpha beta kappa mu S n offset init m =
        Fl.utLayout alpha beta kappa mu S n offset m) :=
  ⟨Fl.forwardWrites_length alpha beta kappa mu S n offset hod,
    fun m => Fl.forwardWrites_filter_idx alpha beta kappa mu S n offset hod m,
    fun init m hm =>
      Fl.forwardPointSet_eq_utLayout alpha beta kappa mu S n offset hod m hm
        init⟩

/-- C5 witness: a 1-dimensional belief embedded at offset 0 into global
dimension 2 satisfies the amended layout. -/
theorem C5_point_layout_witness :
    (0 + 1 ≤ 2) ∧
    ((Fl.forwardWrites 1 2 0 (fun _ : Fin 1 => (0 : ℝ))
        (1 : Matrix (Fin 1) (Fin 1) ℝ) 2 0).length = 2 * 2 + 1 ∧
    (∀ m : ℕ,
      (Fl.forwardWrites 1 2 0 (fun _ : Fin 1 => (0 : ℝ))
          (1 : Matrix (Fin 1) (Fin 1) ℝ) 2 0).filter
          (fun w => w.idx = m) =
        Fl.utWriteAt 1 2 0 (fun _ : Fin 1 => (0 : ℝ))
          (1 : Matrix (Fin 1) (Fin 1) ℝ) 2 0 m) ∧
    (∀ init : ℕ → (Fin 1 → ℝ) × ℝ × ℝ, ∀ m : ℕ, m < 2 * 2 + 1 →
      Fl.forwardPointSet 1 2 0 (fun _ : Fin 1 => (0 : ℝ))
          (1 : Matrix (Fin 1) (Fin 1) ℝ) 2 0 init m =
        Fl.utLayout 1 2 0 (fun _ : Fin 1 => (0 : ℝ))
          (1 : Matrix (Fin 1) (Fin 1) ℝ) 2 0 m)) :=
  ⟨by decide,
    C5_point_layout 1 2 0 (fun _ : Fin 1 => (0 : ℝ))
      (1 : Matrix (Fin 1) (Fin 1) ℝ) 2 0 (by decide)⟩

/-- C5 counterexample to the claim's literal bracket: with a
1-dimensional belief, offset 0, global dimension 1 (and
`alpha = 1, beta = 2, kappa = 0`, zero mean, unit square root), the
code writes `mean − column 0 = −1` at index 2, whereas the claim's
layout (`pair at indices i and n + i for i ∈ [offset, offset + dim)`,
mean everywhere else) puts the unchanged mean `0` there. -/
theorem C5_point_layout_counterexample :
    (Fl.forwardPointSet 1 2 0 (fun _ : Fin 1 => (0 : ℝ))
        (1 : Matrix (Fin 1) (Fin 1) ℝ) 1 0
        (fun _ => (fun _ => 0, 0, 0)) 2).1 ≠
      (Fl.utLayoutClaimC5 1 2 0 (fun _ : Fin 1 => (0 : ℝ))
        (1 : Matrix (Fin 1) (Fin 1) ℝ) 1 0 2).1 := by
  have h1 :
      Fl.forwardPointSet 1 2 0 (fun _ : Fin 1 => (0 : ℝ))
          (1 : Matrix (Fin 1) (Fin 1) ℝ) 1 0
          (fun _ => (fun _ => 0, 0, 0)) 2 =
        Fl.utLayout 1 2 0 (fun _ : Fin 1 => (0 : ℝ))
          (1 : Matrix (Fin 1) (Fin 1) ℝ) 1 0 2 :=
    Fl.forwardPointSet_eq_utLayout 1 2 0 _ _ 1 0 (by omega) 2 (by omega) _
  rw [h1]
  intro h
  have h2 := congrFun h 0
  unfold Fl.utLayout Fl.utLayoutClaimC5 Fl.sqrtCol at h2
  dsimp only at h2
  rw [if_neg (by omega), if_neg (by omega), if_pos (by omega)] at h2
  rw [if_neg (by omega), if_neg (by omega), if_neg (by omega)] at h2
  simp only [Pi.add_apply, Pi.sub_apply] at h2
  norm_num at h2
  rcases h2 with h2 | h2
  · have hγ : Fl.gamma_factor 1 0 1 = 1 := by
      unfold Fl.gamma_factor Fl.lambda_scalar
      norm_num
    rw [hγ] at h2
    exact one_ne_zero h2
  · simp [Matrix.one_apply, Fin.ext_iff] at h2

namespace Fl

/-- The mean weight at index `idx` of the generated layout. -/
theorem utLayout_wm {d : ℕ} (alpha beta kappa : ℝ) (mu : Fin d → ℝ)
    (S : Matrix (Fin d) (Fin d) ℝ) (n offset idx : ℕ) :
    (utLayout alpha beta kappa mu S n offset idx).2.1 =
      if idx = 0 then weight_mean_0 alpha kappa (n : ℝ)
      else weight_mean_i alpha kappa (n : ℝ) := by
  unfold utLayout
  dsimp only
  split_ifs <;> rfl

/-- The covariance weight at index `idx` of the generated layout. -/
theorem utLayout_wc {d : ℕ} (alpha beta kappa : ℝ) (mu : Fin d → ℝ)
    (S : Matrix (Fin d) (Fin d) ℝ) (n offset idx : ℕ) :
    (utLayout alpha beta kappa mu S n offset idx).2.2 =
      if idx = 0 then weight_cov_0 alpha beta kappa (n : ℝ)
      else weight_cov_i alpha kappa (n : ℝ) := by
  unfold utLayout
  dsimp only
  split_ifs <;> rfl

/-- The point at index 0 of the generated layout is the mean. -/
theorem utLayout_pt_zero {d : ℕ} (alpha beta kappa : ℝ) (mu : Fin d → ℝ)
    (S : Matrix (Fin d) (Fin d) ℝ) (n offset : ℕ) :
    (utLayout alpha beta kappa mu S n offset 0).1 = mu := by
  unfold utLayout
  dsimp only
  rw [if_pos rfl]

/-- The point at index `k + 1` (`k < n`): the mean plus the shared
column shift (zero outside this belief's window). -/
theorem utLayout_pt_low {d : ℕ} (alpha beta kappa : ℝ) (mu : Fin d → ℝ)
    (S : Matrix (Fin d) (Fin d) ℝ) (n offset : ℕ)
    (k : ℕ) (hk : k < n) :
    (utLayout alpha beta kappa mu S n offset (k + 1)).1 =
      mu + (if offset ≤ k ∧ k < offset + d then
        sqrtCol (gamma_factor alpha kappa (n : ℝ)) S (k - offset) else 0) := by
  unfold utLayout
  dsimp only
  rw [if_neg (by omega)]
  by_cases hw : offset ≤ k ∧ k < offset + d
  · rw [if_pos (by omega), if_pos hw,
      show k + 1 - (1 + offset) = k - offset from by omega]
  · rw [if_neg (by omega), if_neg (by omega), if_neg hw, add_zero]

/-- The point at index `n + (k + 1)` (`k < n`): the mean minus the
shared column shift. -/
theorem utLayout_pt_high {d : ℕ} (alpha beta kappa : ℝ) (mu : Fin d → ℝ)
    (S : Matrix (Fin d) (Fin d) ℝ) (n offset : ℕ) (hod : offset + d ≤ n)
    (k : ℕ) :
    (utLayout alpha beta kappa mu S n offset (n + (k + 1))).1 =
      mu - (if offset ≤ k ∧ k < offset + d then
        sqrtCol (gamma_factor alpha kappa (n : ℝ)) S (k - offset) else 0) := by
  unfold utLayout
  dsimp only
  rw [if_neg (by omega), if_neg (by omega)]
  by_cases hw : offset ≤ k ∧ k < offset + d
  · rw [if_pos (by omega), if_pos hw,
      show n + (k + 1) - (n + (1 + offset)) = k - offset from by omega]
  · rw [if_neg (by omega), if_neg hw, sub_zero]

end Fl

namespace Fl

/-- Splitting a sum over `0 .. 2n` into the head and the two symmetric
half ranges. -/
theorem sum_range_two_mul_succ {M : Type} [AddCommMonoid M] (F : ℕ → M)
    (n : ℕ) :
    (∑ m ∈ Finset.range (2 * n + 1), F m) =
      F 0 + ((∑ k ∈ Finset.range n, F (k + 1)) +
        ∑ k ∈ Finset.range n, F (n + (k + 1))) := by
  rw [Finset.sum_range_succ']
  rw [show 2 * n = n + n from by omega, Finset.sum_range_add]
  rw [add_comm]
  congr 1

/-- A window sum over `[offset, offset + d) ⊆ [0, n)` re-indexed to
`[0, d)`. -/
theorem sum_window {M : Type} [AddCommMonoid M] (h : ℕ → M)
    (offset d n : ℕ) (hod : offset + d ≤ n) :
    (∑ k ∈ Finset.range n,
        if offset ≤ k ∧ k < offset + d then h (k - offset) else 0) =
      ∑ j ∈ Finset.range d, h j := by
  have hn : n = offset + (d + (n - offset - d)) := by omega
  rw [hn, Finset.sum_range_add, Finset.sum_range_add]
  have h1 : (∑ k ∈ Finset.range offset,
      if offset ≤ k ∧ k < offset + d then h (k - offset) else 0) = 0 :=
    Finset.sum_eq_zero fun k hk =>
      if_neg (by have := Finset.mem_range.mp hk; omega)
  have h3 : (∑ r ∈ Finset.range (n - offset - d),
      if offset ≤ offset + (d + r) ∧ offset + (d + r) < offset + d then
        h (offset + (d + r) - offset) else 0) = 0 :=
    Finset.sum_eq_zero fun r _ => if_neg (by omega)
  rw [h1, h3, zero_add, add_zero]
  refine Finset.sum_congr rfl fun j hj => ?_
  rw [if_pos (by have := Finset.mem_range.mp hj; omega),
    Nat.add_sub_cancel_left]

/-- `sqrtCol` at an in-range column index. -/
theorem sqrtCol_fin {d : ℕ} (gamma : ℝ) (S : Matrix (Fin d) (Fin d) ℝ)
    (j : Fin d) :
    sqrtCol gamma S (j : ℕ) = fun r => gamma * S r j := by
  funext r
  unfold sqrtCol
  rw [dif_pos j.isLt, Fin.eta]

/-- The outer products of the scaled square root's columns sum to
`γ² · (S · Sᵀ)`. -/
theorem sum_vecMulVec_sqrtCol {d : ℕ} (gamma : ℝ)
    (S : Matrix (Fin d) (Fin d) ℝ) :
    (∑ j ∈ Finset.range d,
        Matrix.vecMulVec (sqrtCol gamma S j) (sqrtCol gamma S j)) =
      (gamma ^ 2) • (S * S.transpose) := by
  ext r c
  rw [Matrix.sum_apply]
  rw [← Fin.sum_univ_eq_sum_range
    (fun j => Matrix.vecMulVec (sqrtCol gamma S j) (sqrtCol gamma S j) r c) d]
  have hterm : ∀ j : Fin d,
      Matrix.vecMulVec (sqrtCol gamma S (j : ℕ)) (sqrtCol gamma S (j : ℕ))
          r c = gamma ^ 2 * (S r j * S c j) := by
    intro j
    rw [Matrix.vecMulVec_apply, sqrtCol_fin]
    ring
  rw [Finset.sum_congr rfl fun j _ => hterm j]
  rw [Matrix.smul_apply, Matrix.mul_apply, ← Finset.mul_sum]
  simp [Matrix.transpose_apply, smul_eq_mul]

/-- The unscented weights sum to one whenever `n + λ ≠ 0`. -/
theorem weights_sum_one (alpha kappa : ℝ) (n : ℕ)
    (hL : (n : ℝ) + lambda_scalar alpha kappa (n : ℝ) ≠ 0) :
    weight_mean_0 alpha kappa (n : ℝ) +
      (2 * (n : ℝ)) * weight_mean_i alpha kappa (n : ℝ) = 1 := by
  unfold weight_mean_0 weight_mean_i
  field_simp
  ring

/-- `γ² = n + λ` when `n + λ ≥ 0`. -/
theorem gamma_factor_sq (alpha kappa : ℝ) (dim : ℝ)
    (h : 0 ≤ dim + lambda_scalar alpha kappa dim) :
    gamma_factor alpha kappa dim ^ 2 = dim + lambda_scalar alpha kappa dim := by
  unfold gamma_factor
  exact Real.sq_sqrt h

end Fl

namespace Fl

/-- The mean weights of the generated layout sum to 1. -/
theorem utLayout_sum_wm {d : ℕ} (alpha beta kappa : ℝ) (mu : Fin d → ℝ)
    (S : Matrix (Fin d) (Fin d) ℝ) (n offset : ℕ)
    (hL : (n : ℝ) + lambda_scalar alpha kappa (n : ℝ) ≠ 0) :
    (∑ m ∈ Finset.range (2 * n + 1),
        (utLayout alpha beta kappa mu S n offset m).2.1) = 1 := by
  rw [sum_range_two_mul_succ
    (fun m => (utLayout alpha beta kappa mu S n offset m).2.1) n]
  simp only [utLayout_wm]
  rw [if_pos trivial]
  have h1 : (∑ k ∈ Finset.range n,
      if k + 1 = 0 then weight_mean_0 alpha kappa (n : ℝ)
      else weight_mean_i alpha kappa (n : ℝ)) =
      (n : ℝ) * weight_mean_i alpha kappa (n : ℝ) := by
    rw [Finset.sum_congr rfl fun k _ => if_neg (by omega)]
    rw [Finset.sum_const, Finset.card_range, nsmul_eq_mul]
  have h2 : (∑ k ∈ Finset.range n,
      if n + (k + 1) = 0 then weight_mean_0 alpha kappa (n : ℝ)
      else weight_mean_i alpha kappa (n : ℝ)) =
      (n : ℝ) * weight_mean_i alpha kappa (n : ℝ) := by
    rw [Finset.sum_congr rfl fun k _ => if_neg (by omega)]
    rw [Finset.sum_const, Finset.card_range, nsmul_eq_mul]
  rw [h1, h2]
  linear_combination weights_sum_one alpha kappa n hL

end Fl

namespace Fl

/-- The weighted mean of the generated layout reconstructs the mean. -/
theorem utLayout_sum_mean {d : ℕ} (alpha beta kappa : ℝ) (mu : Fin d → ℝ)
    (S : Matrix (Fin d) (Fin d) ℝ) (n offset : ℕ) (hod : offset + d ≤ n)
    (hL : (n : ℝ) + lambda_scalar alpha kappa (n : ℝ) ≠ 0) :
    (∑ m ∈ Finset.range (2 * n + 1),
        (utLayout alpha beta kappa mu S n offset m).2.1 •
          (utLayout alpha beta kappa mu S n offset m).1) = mu := by
  funext r
  rw [Finset.sum_apply]
  rw [sum_range_two_mul_succ
    (fun m => ((utLayout alpha beta kappa mu S n offset m).2.1 •
      (utLayout alpha beta kappa mu S n offset m).1) r) n]
  simp only [Pi.smul_apply, smul_eq_mul]
  have hw0 : (utLayout alpha beta kappa mu S n offset 0).2.1 =
      weight_mean_0 alpha kappa (n : ℝ) := by
    rw [utLayout_wm]
    exact if_pos rfl
  have hwk : ∀ k : ℕ,
      (utLayout alpha beta kappa mu S n offset (k + 1)).2.1 =
        weight_mean_i alpha kappa (n : ℝ) := fun k => by
    rw [utLayout_wm]
    exact if_neg (by omega)
  have hwk' : ∀ k : ℕ,
      (utLayout alpha beta kappa mu S n offset (n + (k + 1))).2.1 =
        weight_mean_i alpha kappa (n : ℝ) := fun k => by
    rw [utLayout_wm]
    exact if_neg (by omega)
  rw [← Finset.sum_add_distrib]
  have hpair : ∀ k ∈ Finset.range n,
      (utLayout alpha beta kappa mu S n offset (k + 1)).2.1 *
          (utLayout alpha beta kappa mu S n offset (k + 1)).1 r +
        (utLayout alpha beta kappa mu S n offset (n + (k + 1))).2.1 *
          (utLayout alpha beta kappa mu S n offset (n + (k + 1))).1 r =
        2 * weight_mean_i alpha kappa (n : ℝ) * mu r := by
    intro k hk
    have hk' := Finset.mem_range.mp hk
    rw [hwk k, hwk' k, utLayout_pt_low alpha beta kappa mu S n offset k hk',
      utLayout_pt_high alpha beta kappa mu S n offset hod k]
    simp only [Pi.add_apply, Pi.sub_apply]
    ring
  rw [Finset.sum_congr rfl hpair, Finset.sum_const, Finset.card_range,
    nsmul_eq_mul, hw0]
  rw [utLayout_pt_zero]
  linear_combination mu r * weights_sum_one alpha kappa n hL

end Fl

namespace Fl

/-- The weighted centered outer products of the generated layout
reconstruct `S · Sᵀ` when `n + λ > 0`. -/
theorem utLayout_sum_cov {d : ℕ} (alpha beta kappa : ℝ) (mu : Fin d → ℝ)
    (S : Matrix (Fin d) (Fin d) ℝ) (n offset : ℕ) (hod : offset + d ≤ n)
    (hpos : 0 < (n : ℝ) + lambda_scalar alpha kappa (n : ℝ)) :
    (∑ m ∈ Finset.range (2 * n + 1),
        (utLayout alpha beta kappa mu S n offset m).2.2 •
          Matrix.vecMulVec
            ((utLayout alpha beta kappa mu S n offset m).1 - mu)
            ((utLayout alpha beta kappa mu S n offset m).1 - mu)) =
      S * S.transpose := by
  ext r c
  rw [Matrix.sum_apply]
  rw [sum_range_two_mul_succ
    (fun m => ((utLayout alpha beta kappa mu S n offset m).2.2 •
      Matrix.vecMulVec
        ((utLayout alpha beta kappa mu S n offset m).1 - mu)
        ((utLayout alpha beta kappa mu S n offset m).1 - mu)) r c) n]
  simp only [Matrix.smul_apply, Matrix.vecMulVec_apply, Pi.sub_apply,
    smul_eq_mul]
  have hwck : ∀ k : ℕ,
      (utLayout alpha beta kappa mu S n offset (k + 1)).2.2 =
        weight_cov_i alpha kappa (n : ℝ) := fun k => by
    rw [utLayout_wc]
    exact if_neg (by omega)
  have hwck' : ∀ k : ℕ,
      (utLayout alpha beta kappa mu S n offset (n + (k + 1))).2.2 =
        weight_cov_i alpha kappa (n : ℝ) := fun k => by
    rw [utLayout_wc]
    exact if_neg (by omega)
  have hpair : ∀ k ∈ Finset.range n,
      (utLayout alpha beta kappa mu S n offset (k + 1)).2.2 *
          (((utLayout alpha beta kappa mu S n offset (k + 1)).1 r - mu r) *
            ((utLayout alpha beta kappa mu S n offset (k + 1)).1 c - mu c)) +
        (utLayout alpha beta kappa mu S n offset (n + (k + 1))).2.2 *
          (((utLayout alpha beta kappa mu S n offset (n + (k + 1))).1 r -
              mu r) *
            ((utLayout alpha beta kappa mu S n offset (n + (k + 1))).1 c -
              mu c)) =
        (if offset ≤ k ∧ k < offset + d then
          2 * weight_cov_i alpha kappa (n : ℝ) *
            (sqrtCol (gamma_factor alpha kappa (n : ℝ)) S (k - offset) r *
              sqrtCol (gamma_factor alpha kappa (n : ℝ)) S (k - offset) c)
        else 0) := by
    intro k hk
    have hk' := Finset.mem_range.mp hk
    rw [hwck k, hwck' k, utLayout_pt_low alpha beta kappa mu S n offset k hk',
      utLayout_pt_high alpha beta kappa mu S n offset hod k]
    by_cases hw : offset ≤ k ∧ k < offset + d
    · rw [if_pos hw, if_pos hw]
      simp only [Pi.add_apply, Pi.sub_apply]
      ring
    · rw [if_neg hw, if_neg hw]
      simp only [Pi.add_apply, Pi.sub_apply, Pi.zero_apply]
      ring
  rw [← Finset.sum_add_distrib, Finset.sum_congr rfl hpair]
  rw [sum_window
    (fun j => 2 * weight_cov_i alpha kappa (n : ℝ) *
      (sqrtCol (gamma_factor alpha kappa (n : ℝ)) S j r *
        sqrtCol (gamma_factor alpha kappa (n : ℝ)) S j c)) offset d n hod]
  have hcol : (∑ j ∈ Finset.range d,
      sqrtCol (gamma_factor alpha kappa (n : ℝ)) S j r *
        sqrtCol (gamma_factor alpha kappa (n : ℝ)) S j c) =
      gamma_factor alpha kappa (n : ℝ) ^ 2 * (S * S.transpose) r c := by
    have h :=
      congrFun (congrFun
        (sum_vecMulVec_sqrtCol (gamma_factor alpha kappa (n : ℝ)) S) r) c
    rw [Matrix.sum_apply, Matrix.smul_apply, smul_eq_mul] at h
    simp only [Matrix.vecMulVec_apply] at h
    exact h
  rw [← Finset.mul_sum, hcol, utLayout_pt_zero]
  simp only [sub_self, mul_zero, zero_mul, zero_add]
  rw [gamma_factor_sq alpha kappa (n : ℝ) hpos.le]
  unfold weight_cov_i weight_mean_i
  field_simp
  ring

end Fl

/-- C6 (amended): for every generated sigma-point set with
`offset + d ≤ n` and `n + lambda > 0` (the claim's `n + lambda ≠ 0`
is not enough: for negative `n + lambda` the square-root scaling
degenerates), the mean weights sum to 1, the weighted mean of the
points equals the source mean, and the weighted centered outer-product
covariance estimate equals `square_root · square_rootᵀ`. -/
theorem C6_moment_reconstruction {d : ℕ} (alpha beta kappa : ℝ)
    (mu : Fin d → ℝ) (S : Matrix (Fin d) (Fin d) ℝ) (n offset : ℕ)
    (init : ℕ → (Fin d → ℝ) × ℝ × ℝ) (hod : offset + d ≤ n)
    (hpos : 0 < (n : ℝ) + Fl.lambda_scalar alpha kappa (n : ℝ)) :
    (∑ m ∈ Finset.range (2 * n + 1),
        (Fl.forwardPointSet alpha beta kappa mu S n offset init m).2.1) =
      1 ∧
    (∑ m ∈ Finset.range (2 * n + 1),
        (Fl.forwardPointSet alpha beta kappa mu S n offset init m).2.1 •
          (Fl.forwardPointSet alpha beta kappa mu S n offset init m).1) =
      mu ∧
    (∑ m ∈ Finset.range (2 * n + 1),
        (Fl.forwardPointSet alpha beta kappa mu S n offset init m).2.2 •
          Matrix.vecMulVec
            ((Fl.forwardPointSet alpha beta kappa mu S n offset init m).1 -
              mu)
            ((Fl.forwardPointSet alpha beta kappa mu S n offset init m).1 -
              mu)) = S * S.transpose := by
  have hP : ∀ m ∈ Finset.range (2 * n + 1),
      Fl.forwardPointSet alpha beta kappa mu S n offset init m =
        Fl.utLayout alpha beta kappa mu S n offset m := fun m hm =>
    Fl.forwardPointSet_eq_utLayout alpha beta kappa mu S n offset hod m
      (Finset.mem_range.mp hm) init
  refine ⟨?_, ?_, ?_⟩
  · rw [Finset.sum_congr rfl fun m hm =>
      congrArg (fun p => p.2.1) (hP m hm)]
    exact Fl.utLayout_sum_wm alpha beta kappa mu S n offset hpos.ne'
  · rw [Finset.sum_congr rfl fun m hm =>
      congrArg (fun p => p.2.1 • p.1) (hP m hm)]
    exact Fl.utLayout_sum_mean alpha beta kappa mu S n offset hod hpos.ne'
  · rw [Finset.sum_congr rfl fun m hm =>
      congrArg
        (fun p => p.2.2 • Matrix.vecMulVec (p.1 - mu) (p.1 - mu))
        (hP m hm)]
    exact Fl.utLayout_sum_cov alpha beta kappa mu S n offset hod hpos

/-- C6 witness: the standard 1-dimensional belief embedded into global
dimension 2 (with `alpha = 1, beta = 2, kappa = 0`, so
`n + lambda = 2 > 0`) reconstructs its moments. -/
theorem C6_moment_reconstruction_witness :
    ((0 + 1 ≤ 2) ∧
      0 < ((2 : ℕ) : ℝ) + Fl.lambda_scalar 1 0 ((2 : ℕ) : ℝ)) ∧
    ((∑ m ∈ Finset.range (2 * 2 + 1),
        (Fl.forwardPointSet 1 2 0 (fun _ : Fin 1 => (0 : ℝ))
          (1 : Matrix (Fin 1) (Fin 1) ℝ) 2 0
          (fun _ => (fun _ => 0, 0, 0)) m).2.1) = 1 ∧
    (∑ m ∈ Finset.range (2 * 2 + 1),
        (Fl.forwardPointSet 1 2 0 (fun _ : Fin 1 => (0 : ℝ))
          (1 : Matrix (Fin 1) (Fin 1) ℝ) 2 0
          (fun _ => (fun _ => 0, 0, 0)) m).2.1 •
          (Fl.forwardPointSet 1 2 0 (fun _ : Fin 1 => (0 : ℝ))
            (1 : Matrix (Fin 1) (Fin 1) ℝ) 2 0
            (fun _ => (fun _ => 0, 0, 0)) m).1) =
      (fun _ : Fin 1 => (0 : ℝ)) ∧
    (∑ m ∈ Finset.range (2 * 2 + 1),
        (Fl.forwardPointSet 1 2 0 (fun _ : Fin 1 => (0 : ℝ))
          (1 : Matrix (Fin 1) (Fin 1) ℝ) 2 0
          (fun _ => (fun _ => 0, 0, 0)) m).2.2 •
          Matrix.vecMulVec
            ((Fl.forwardPointSet 1 2 0 (fun _ : Fin 1 => (0 : ℝ))
              (1 : Matrix (Fin 1) (Fin 1) ℝ) 2 0
              (fun _ => (fun _ => 0, 0, 0)) m).1 -
              (fun _ : Fin 1 => (0 : ℝ)))
            ((Fl.forwardPointSet 1 2 0 (fun _ : Fin 1 => (0 : ℝ))
              (1 : Matrix (Fin 1) (Fin 1) ℝ) 2 0
              (fun _ => (fun _ => 0, 0, 0)) m).1 -
              (fun _ : Fin 1 => (0 : ℝ)))) =
      (1 : Matrix (Fin 1) (Fin 1) ℝ) *
        (1 : Matrix (Fin 1) (Fin 1) ℝ).transpose) :=
  ⟨⟨by omega, by norm_num [Fl.lambda_scalar]⟩,
    C6_moment_reconstruction 1 2 0 (fun _ : Fin 1 => (0 : ℝ))
      (1 : Matrix (Fin 1) (Fin 1) ℝ) 2 0 (fun _ => (fun _ => 0, 0, 0))
      (by omega) (by norm_num [Fl.lambda_scalar])⟩

/-- C6 counterexample to the claim as stated (`n + lambda ≠ 0` alone):
with `alpha = 1, kappa = -2` and global dimension 1, `n + lambda = -1`
is nonzero, yet the square-root scaling `gamma = sqrt(-1)` degenerates
and the covariance estimate of the generated set (zero) does not equal
`square_root · square_rootᵀ = 1`. -/
theorem C6_moment_reconstruction_counterexample :
    (((1 : ℕ) : ℝ) + Fl.lambda_scalar 1 (-2) ((1 : ℕ) : ℝ) ≠ 0) ∧
    (∑ m ∈ Finset.range (2 * 1 + 1),
        (Fl.forwardPointSet 1 2 (-2) (fun _ : Fin 1 => (0 : ℝ))
          (1 : Matrix (Fin 1) (Fin 1) ℝ) 1 0
          (fun _ => (fun _ => 0, 0, 0)) m).2.2 •
          Matrix.vecMulVec
            ((Fl.forwardPointSet 1 2 (-2) (fun _ : Fin 1 => (0 : ℝ))
              (1 : Matrix (Fin 1) (Fin 1) ℝ) 1 0
              (fun _ => (fun _ => 0, 0, 0)) m).1 -
              (fun _ : Fin 1 => (0 : ℝ)))
            ((Fl.forwardPointSet 1 2 (-2) (fun _ : Fin 1 => (0 : ℝ))
              (1 : Matrix (Fin 1) (Fin 1) ℝ) 1 0
              (fun _ => (fun _ => 0, 0, 0)) m).1 -
              (fun _ : Fin 1 => (0 : ℝ)))) ≠
      (1 : Matrix (Fin 1) (Fin 1) ℝ) *
        (1 : Matrix (Fin 1) (Fin 1) ℝ).transpose := by
  constructor
  · norm_num [Fl.lambda_scalar]
  · have hγ : Fl.gamma_factor 1 (-2) ((1 : ℕ) : ℝ) = 0 := by
      unfold Fl.gamma_factor
      rw [Real.sqrt_eq_zero']
      norm_num [Fl.lambda_scalar]
    have hsq : Fl.sqrtCol (Fl.gamma_factor 1 (-2) ((1 : ℕ) : ℝ))
        (1 : Matrix (Fin 1) (Fin 1) ℝ) 0 = 0 := by
      funext r
      unfold Fl.sqrtCol
      rw [dif_pos (by omega : (0 : ℕ) < 1), hγ]
      simp
    have hpt : ∀ m ∈ Finset.range (2 * 1 + 1),
        (Fl.forwardPointSet 1 2 (-2) (fun _ : Fin 1 => (0 : ℝ))
          (1 : Matrix (Fin 1) (Fin 1) ℝ) 1 0
          (fun _ => (fun _ => 0, 0, 0)) m).1 = (fun _ : Fin 1 => (0 : ℝ)) := by
      intro m hm
      have hm' := Finset.mem_range.mp hm
      rw [Fl.forwardPointSet_eq_utLayout 1 2 (-2) _ _ 1 0 (by omega) m hm' _]
      interval_cases m
      · exact Fl.utLayout_pt_zero 1 2 (-2) _ _ 1 0
      · rw [Fl.utLayout_pt_low 1 2 (-2) _ _ 1 0 0 (by omega),
          if_pos (by omega), hsq]
        funext r
        simp
      · rw [show (2 : ℕ) = 1 + (0 + 1) from rfl,
          Fl.utLayout_pt_high 1 2 (-2) _ _ 1 0 (by omega) 0,
          if_pos (by omega), hsq]
        funext r
        simp
    intro hEq
    have h00 := congrFun (congrFun hEq 0) 0
    rw [Matrix.sum_apply] at h00
    rw [Finset.sum_congr rfl (fun m hm => by rw [hpt m hm])] at h00
    simp [Matrix.vecMulVec_apply, Matrix.mul_apply, Matrix.one_apply] at h00
